import Mathlib

/-!
CppCourse: the scope-guard exercise and the shared-pointer list.

A shallow embedding of the two programs of the repository:

* `Assignments/10-ErrorHandling/ScopeGuard/main.cpp` (`processBin`, `readBin`, `main`),
  over an explicit model of the Win32 calls it makes;
* `Instructor Solutions/SmartPtrs/SmartPointers/main.cpp` (`add_node`, `get_count`,
  `find_value`, `remove_node`), over an explicit heap of `ListNode` objects.

Modelling conventions.

* C++ exceptions are values of `Exn`; a function that may throw returns the program state
  together with an `Except Exn _`, so the state reached at the throw is kept.
* Memory allocation (`std::vector::resize`, `std::make_shared`) always succeeds.
* Dereferencing an empty `shared_ptr` and an exhausted loop budget are faults of type
  `Fault`.
* Arithmetic on `int` wraps around in two's complement, as the compiled program does: the
  successor of `INT_MAX` is `INT_MIN`. The conversion to `uint32_t` is taken modulo `2 ^ 32`.
-/

namespace ScopeGuard

/-! ## The Win32 environment of `ScopeGuard/main.cpp` -/

/-- A Win32 `HANDLE`, seen as the integer value of the pointer. -/
abbrev HANDLE := Int

/-- The Win32 constant `INVALID_HANDLE_VALUE`, that is `(HANDLE)(LONG_PTR)-1`. -/
def INVALID_HANDLE_VALUE : HANDLE := -1

/-- The behaviour of the operating system, as far as `readBin` can observe it. -/
structure Win32 where
  /-- Result of `CreateFile` on a file name: a handle, or `INVALID_HANDLE_VALUE`. -/
  CreateFile : String → HANDLE
  /-- Value of `GetLastError()` after a failed `CreateFile` on that file name. -/
  GetLastError : String → Nat
  /-- Result of `GetFileSize(h, nullptr)`. -/
  GetFileSize : HANDLE → Nat
  /-- Bytes that `ReadFile` delivers from the handle when asked for that many bytes. -/
  ReadFile : HANDLE → Nat → List Nat

/-- The system calls the program can make; the program state records them in order. -/
inductive Call where
  | CreateFile (filename : String)
  | GetLastError
  | GetFileSize (h : HANDLE)
  | ReadFile (h : HANDLE) (size : Nat)
  | CloseHandle (h : HANDLE)
  deriving DecidableEq, Repr

/-- The exceptions thrown in `main.cpp`: `BadFile` (derived from `std::runtime_error`) and a
plain `std::runtime_error`. A handler for `const BadFile&` matches only the first. -/
inductive Exn where
  | BadFile (what : String)
  | runtime_error (what : String)
  deriving DecidableEq, Repr

/-- Program state: the global `g_hFile`, the system calls made so far (oldest first), and
what has been written to `std::cerr` and `std::cout`. -/
structure State where
  g_hFile : HANDLE
  calls : List Call
  cerr : List String
  cout : List String
  deriving DecidableEq, Repr

/-- The state at program start: `HANDLE g_hFile = INVALID_HANDLE_VALUE;`. -/
def State.start : State :=
  { g_hFile := INVALID_HANDLE_VALUE, calls := [], cerr := [], cout := [] }

/-- Number of `CloseHandle` calls among the recorded system calls. -/
def closeCount (calls : List Call) : Nat :=
  (calls.filter (fun c => match c with
    | Call.CloseHandle _ => true
    | _ => false)).length

/-- The function `void processBin(std::vector<uint8_t>& bin)`: always throws
`std::runtime_error("BAD")`.
On a normal return the (possibly modified) vector would be handed back. -/
def processBin (_bin : List Nat) : Except Exn (List Nat) :=
  Except.error (Exn.runtime_error "BAD")

/-- The function `std::vector<uint8_t> readBin(const std::wstring& filename)`, statement by
statement. -/
def readBin (os : Win32) (filename : String) (s : State) : State × Except Exn (List Nat) :=
  -- g_hFile = CreateFile(filename.c_str(), ...);
  let s1 : State :=
    { s with g_hFile := os.CreateFile filename, calls := s.calls ++ [Call.CreateFile filename] }
  if s1.g_hFile = INVALID_HANDLE_VALUE then
    -- std::cerr << "ERROR: " << GetLastError() << "\n"; throw BadFile("Can't Open File\n");
    let s2 : State :=
      { s1 with
        calls := s1.calls ++ [Call.GetLastError]
        cerr := s1.cerr ++ ["ERROR: ", toString (os.GetLastError filename), "\n"] }
    (s2, Except.error (Exn.BadFile "Can't Open File\n"))
  else
    -- bin.resize(GetFileSize(g_hFile, nullptr));
    let size := os.GetFileSize s1.g_hFile
    let s2 : State := { s1 with calls := s1.calls ++ [Call.GetFileSize s1.g_hFile] }
    -- ReadFile(g_hFile, bin.data(), bin.size(), &bytesRead, nullptr);
    let data := (os.ReadFile s2.g_hFile size).take size
    let bin := data ++ List.replicate (size - data.length) 0
    let s3 : State := { s2 with calls := s2.calls ++ [Call.ReadFile s2.g_hFile size] }
    -- processBin(bin);
    match processBin bin with
    | Except.error e => (s3, Except.error e)
    | Except.ok bin1 =>
      -- CloseHandle(g_hFile); g_hFile = INVALID_HANDLE_VALUE; return bin;
      let s4 : State :=
        { s3 with
          calls := s3.calls ++ [Call.CloseHandle s3.g_hFile]
          g_hFile := INVALID_HANDLE_VALUE }
      (s4, Except.ok bin1)

/-- The file name `main` passes to `readBin`. -/
def calcPath : String := "C:\\Windows\\System32\\calc.exe"

/-- The function `int main()`: the final state and the exit code. -/
def main (os : Win32) (s : State) : State × Int :=
  match readBin os calcPath s with
  | (s1, Except.error (Exn.BadFile what)) =>
    -- catch (const BadFile& e) { std::cerr << e.what() << "\n"; return -1; }
    ({ s1 with cerr := s1.cerr ++ [what, "\n"] }, -1)
  | (s1, _) =>
    -- normal completion of the try block, or catch (...) { }
    if s1.g_hFile = INVALID_HANDLE_VALUE then
      ({ s1 with cout := s1.cout ++ ["PASS!\n"] }, 0)
    else
      ({ s1 with cerr := s1.cerr ++ ["FAIL!\n"] }, -1)

end ScopeGuard

namespace Guard

/-! ## The scope guard `guard.h` (absent from the sources; modelled from the specification) -/

/-- Modelled from the spec: the `ScopedAction` of `guard.h`, which `ScopeGuard/main.cpp`
includes but the repository does not contain. It holds one action with no arguments and no
return value, here a transformer of the world `σ` that may signal a failure `ε`, and the
`active` flag. -/
structure ScopedAction (σ ε : Type) where
  action : σ → σ × Option ε
  active : Bool

/-- Modelled from the spec: `Construct(action)` of the missing `guard.h`: stores the action
and sets `active = true`; the action is not invoked. -/
def ScopedAction.construct {σ ε : Type} (action : σ → σ × Option ε) : ScopedAction σ ε :=
  { action := action, active := true }

/-- Modelled from the spec: `dismiss()` of the missing `guard.h`: sets `active = false`,
touches nothing else and always succeeds. -/
def ScopedAction.dismiss {σ ε : Type} (g : ScopedAction σ ε) : ScopedAction σ ε :=
  { g with active := false }

/-- Modelled from the spec: `invoke-now()` of the missing `guard.h`: if active, runs the
action immediately and sets `active = false`, propagating whatever failure the action raises;
if not active it does nothing. -/
def ScopedAction.invokeNow {σ ε : Type} (g : ScopedAction σ ε) (w : σ) :
    ScopedAction σ ε × σ × Option ε :=
  if g.active then
    ({ g with active := false }, (g.action w).1, (g.action w).2)
  else
    (g, w, none)

/-- Modelled from the spec: implicit destruction (scope exit) of the missing `guard.h`.
`inflight` is the failure unwinding the stack, if there is one. If the guard is active the
action runs once and `active` becomes false. A failure of the action is discarded while
another failure is in flight, and propagates on a normal exit. -/
def ScopedAction.scopeExit {σ ε : Type} (g : ScopedAction σ ε) (inflight : Option ε) (w : σ) :
    ScopedAction σ ε × σ × Option ε :=
  if g.active then
    ({ g with active := false }, (g.action w).1,
      match inflight with
      | some e => some e
      | none => (g.action w).2)
  else
    (g, w, inflight)

/-- What the code of the enclosing scope does after the construction of the guard and before
the scope ends: calls on the guard, and other work that fails. -/
inductive GuardCall (ε : Type) where
  | dismiss
  | invokeNow
  | fail (e : ε)

/-- A point in the life of a guard: the guard, the world, the failure in flight, and the
values the `active` flag has taken so far (oldest first). -/
structure Life (σ ε : Type) where
  guard : ScopedAction σ ε
  world : σ
  failure : Option ε
  history : List Bool

/-- Modelled from the spec: the point where the guard of the missing `guard.h` has just been
constructed from `action`, in world `w`, with no failure in flight. -/
def Life.born {σ ε : Type} (action : σ → σ × Option ε) (w : σ) : Life σ ε :=
  { guard := ScopedAction.construct action
    world := w
    failure := none
    history := [(ScopedAction.construct action).active] }

/-- Modelled from the spec: the body of the scope that owns the guard (absent `guard.h`).
Calls are made in order; a failure, raised by `invoke-now()` or by other work, ends the body
at once and starts unwinding. -/
def scopeBody {σ ε : Type} : List (GuardCall ε) → Life σ ε → Life σ ε
  | [], l => l
  | GuardCall.dismiss :: rest, l =>
    scopeBody rest
      { l with guard := l.guard.dismiss, history := l.history ++ [l.guard.dismiss.active] }
  | GuardCall.invokeNow :: rest, l =>
    let r := l.guard.invokeNow l.world
    let l1 : Life σ ε :=
      { guard := r.1, world := r.2.1, failure := r.2.2, history := l.history ++ [r.1.active] }
    match r.2.2 with
    | some _ => l1
    | none => scopeBody rest l1
  | GuardCall.fail e :: _, l => { l with failure := some e }

/-- Modelled from the spec: the whole life of a guard of the missing `guard.h`: construction,
the calls of the scope body, then the implicit destruction at scope exit. -/
def lifetime {σ ε : Type} (action : σ → σ × Option ε) (calls : List (GuardCall ε))
    (w : σ) : Life σ ε :=
  let l := scopeBody calls (Life.born action w)
  let r := l.guard.scopeExit l.failure l.world
  { guard := r.1, world := r.2.1, failure := r.2.2, history := l.history ++ [r.1.active] }

/-- The `active` flag was never set again after it had been cleared: in the history of its
values every `false` is followed by `false` only. -/
def neverReactivated (history : List Bool) : Prop :=
  history.Pairwise (fun a b => a = false → b = false)

/-- An action instrumented with a counter of its runs, kept next to the world. -/
def counted {σ ε : Type} (action : σ → σ × Option ε) :
    σ × Nat → (σ × Nat) × Option ε :=
  fun p => (((action p.1).1, p.2 + 1), (action p.1).2)

end Guard

namespace SmartPointers

/-! ## The shared-pointer list of `SmartPointers/main.cpp` -/

/-- A `std::shared_ptr<ListNode>`: empty, or the address of a node. -/
abbrev Ptr := Option Nat

/-- The node type `struct ListNode { std::shared_ptr<ListNode> next; uint32_t data; };`. -/
structure ListNode where
  next : Ptr
  data : Nat
  deriving DecidableEq, Repr

/-- The heap: the node objects created so far; an address is an index into it. -/
abbrev Heap := List ListNode

/-- How an execution can go wrong. -/
inductive Fault where
  /-- Dereference of an empty `shared_ptr`. -/
  | nullDeref
  /-- An address that designates no node of the heap. -/
  | dangling
  /-- The loop budget is exhausted. -/
  | outOfFuel
  deriving DecidableEq, Repr

/-- The largest value of `int`. -/
def INT_MAX : Int := 2 ^ 31 - 1

/-- The smallest value of `int`. -/
def INT_MIN : Int := -(2 ^ 31)

/-- The statement `count++` on an `int`: the next value, wrapping from `INT_MAX` to
`INT_MIN`. -/
def int_incr (count : Int) : Int :=
  if count = INT_MAX then INT_MIN else count + 1

/-- The call `std::make_shared<ListNode>()`: a new value-initialised node at a fresh address. -/
def make_shared (h : Heap) : Heap × Nat :=
  (h ++ [{ next := none, data := 0 }], h.length)

/-- Assignment through a non-empty pointer: replaces the node at address `a` by `f` of it. -/
def Heap.update (h : Heap) (a : Nat) (f : ListNode → ListNode) : Heap :=
  match h[a]? with
  | some n => h.set a (f n)
  | none => h

/-- The function `void add_node(std::shared_ptr<ListNode>& head, uint32_t value)` as compiled, with
`ADD_BACK` undefined. Returns the heap and the new value of `head`. -/
def add_node (h : Heap) (head : Ptr) (value : Nat) : Heap × Ptr :=
  -- auto tmp = std::make_shared<ListNode>();
  let h1 := (make_shared h).1
  let tmp := (make_shared h).2
  -- tmp->data = value;
  let h2 := h1.update tmp (fun n => { n with data := value })
  -- tmp->next = head;
  let h3 := h2.update tmp (fun n => { n with next := head })
  -- head = tmp;
  (h3, some tmp)

/-- The `while (tmp)` loop of `get_count`, with the `int` counter `count`. -/
def get_count_loop : Nat → Heap → Ptr → Int → Except Fault Int
  | 0, _, _, _ => Except.error Fault.outOfFuel
  | fuel + 1, h, tmp, count =>
    match tmp with
    | none => Except.ok count
    | some a =>
      -- count++; tmp = tmp->next;
      match h[a]? with
      | none => Except.error Fault.dangling
      | some n => get_count_loop fuel h n.next (int_incr count)

/-- The function `uint32_t get_count(std::shared_ptr<ListNode> head)`: the loop from
`count = 0`, then the conversion of the `int` to `uint32_t`. -/
def get_count (fuel : Nat) (h : Heap) (head : Ptr) : Except Fault Nat :=
  match get_count_loop fuel h head 0 with
  | Except.error f => Except.error f
  | Except.ok count => Except.ok (count % 2 ^ 32).toNat

/-- The function
`std::shared_ptr<ListNode> find_value(std::shared_ptr<ListNode> head, uint32_t needle)`;
the first argument of the recursion is the loop budget, `tmp` starts as `head`. -/
def find_value : Nat → Heap → Ptr → Nat → Except Fault Ptr
  | 0, _, _, _ => Except.error Fault.outOfFuel
  | fuel + 1, h, tmp, needle =>
    match tmp with
    | none => Except.ok none
    | some a =>
      match h[a]? with
      | none => Except.error Fault.dangling
      | some n =>
        if n.data = needle then Except.ok (some a)
        else find_value fuel h n.next needle

/-- The function `std::shared_ptr<ListNode> remove_node(std::shared_ptr<ListNode>& head)`.
Returns the
heap, the new value of `head`, and the returned pointer. -/
def remove_node (h : Heap) (head : Ptr) : Except Fault (Heap × Ptr × Ptr) :=
  -- auto tmp = head;
  let tmp := head
  -- head = head->next;
  match head with
  | none => Except.error Fault.nullDeref
  | some a =>
    match h[a]? with
    | none => Except.error Fault.dangling
    | some n =>
      -- tmp->next = nullptr; return tmp;
      Except.ok (h.update a (fun m => { m with next := none }), n.next, tmp)

/-- The pointer `p` heads a finite list in heap `h` whose nodes are, in order, `xs`, each
given as (address, data). Following `next` from the last node yields the empty pointer. -/
def isList (h : Heap) : Ptr → List (Nat × Nat) → Bool
  | none, [] => true
  | some a, x :: xs =>
    match h[a]? with
    | some n => decide (x.1 = a) && decide (x.2 = n.data) && isList h n.next xs
    | none => false
  | _, _ => false

/-- Following `next` from the pointer `p`, `n` times: the pointer reached, or nothing when an
empty or dangling pointer would have to be dereferenced on the way. -/
def follow : Nat → Heap → Ptr → Option Ptr
  | 0, _, p => some p
  | n + 1, h, p =>
    match p with
    | none => none
    | some a =>
      match h[a]? with
      | none => none
      | some node => follow n h node.next

/-- A call on the list: `add_node(head, value)` or `remove_node(head)`. -/
inductive ListCall where
  | add_node (value : Nat)
  | remove_node
  deriving DecidableEq, Repr

/-- The state of a program that uses the list: the heap, the global `head`, and the pointers
that `remove_node` has returned so far (oldest first). -/
structure Session where
  heap : Heap
  head : Ptr
  returned : List Ptr
  deriving DecidableEq, Repr

/-- The state at program start: `std::shared_ptr<ListNode> head = nullptr;`, no node created. -/
def Session.start : Session :=
  { heap := [], head := none, returned := [] }

/-- One call on the global `head`. -/
def Session.call (s : Session) : ListCall → Except Fault Session
  | ListCall.add_node value =>
    Except.ok
      { s with
        heap := (add_node s.heap s.head value).1
        head := (add_node s.heap s.head value).2 }
  | ListCall.remove_node =>
    match remove_node s.heap s.head with
    | Except.error f => Except.error f
    | Except.ok r => Except.ok { heap := r.1, head := r.2.1, returned := s.returned ++ [r.2.2] }

/-- A finite sequence of calls on the global `head`, in order; it stops at the first fault. -/
def Session.calls : List ListCall → Session → Except Fault Session
  | [], s => Except.ok s
  | c :: cs, s =>
    match s.call c with
    | Except.error f => Except.error f
    | Except.ok s1 => Session.calls cs s1

/-- The list built by `n` calls of `add_node` with value `0`, from the empty list. -/
def zeros : Nat → Heap × Ptr
  | 0 => ([], none)
  | n + 1 => add_node (zeros n).1 (zeros n).2 0

end SmartPointers

/-! ## Sample inputs -/

namespace ScopeGuard

/-- An operating system on which every open succeeds with handle `4`, and every file has
three bytes. -/
def osOpens : Win32 :=
  { CreateFile := fun _ => 4
    GetLastError := fun _ => 0
    GetFileSize := fun _ => 3
    ReadFile := fun _ _ => [77, 90, 144] }

/-- An operating system on which every open fails with error code `2`. -/
def osFails : Win32 :=
  { CreateFile := fun _ => INVALID_HANDLE_VALUE
    GetLastError := fun _ => 2
    GetFileSize := fun _ => 0
    ReadFile := fun _ _ => [] }

end ScopeGuard

namespace SmartPointers

/-- A heap with three nodes, created in the order `7`, `5`, `9` by `add_node`; the pointer
`some 2` heads the list `9, 5, 7`. -/
def sampleHeap : Heap :=
  [{ next := none, data := 7 }, { next := some 0, data := 5 }, { next := some 1, data := 9 }]

/-- A heap with four nodes, created in the order `5`, `7`, `5`, `9` by `add_node`; the pointer
`some 3` heads the list `9, 5, 7, 5`, in which `5` occurs twice. -/
def repeatHeap : Heap :=
  [{ next := none, data := 5 }, { next := some 0, data := 7 }, { next := some 1, data := 5 },
    { next := some 2, data := 9 }]

end SmartPointers

/-! ## Theorems about `ScopeGuard/main.cpp` -/

namespace ScopeGuard

/-- The state `readBin` reaches at the call of `processBin` when the open has succeeded. -/
theorem readBin_of_open (os : Win32) (filename : String) (s : State)
    (hopen : os.CreateFile filename ≠ INVALID_HANDLE_VALUE) :
    readBin os filename s =
      ({ s with
          g_hFile := os.CreateFile filename
          calls := s.calls ++ [Call.CreateFile filename] ++
            [Call.GetFileSize (os.CreateFile filename)] ++
            [Call.ReadFile (os.CreateFile filename) (os.GetFileSize (os.CreateFile filename))] },
        Except.error (Exn.runtime_error "BAD")) := by
  simp [readBin, processBin, hopen]

/-- The state in which `readBin` throws when the open has failed. -/
theorem readBin_of_fail (os : Win32) (filename : String) (s : State)
    (hfail : os.CreateFile filename = INVALID_HANDLE_VALUE) :
    readBin os filename s =
      ({ s with
          g_hFile := INVALID_HANDLE_VALUE
          calls := s.calls ++ [Call.CreateFile filename] ++ [Call.GetLastError]
          cerr := s.cerr ++ ["ERROR: ", toString (os.GetLastError filename), "\n"] },
        Except.error (Exn.BadFile "Can't Open File\n")) := by
  simp [readBin, hfail]

/-- C1 (the code as it stands): for every file name whose open succeeds, `readBin` leaves
with the failure of `processBin` having made no `CloseHandle` call at all, and with `g_hFile`
still holding the open handle, not `INVALID_HANDLE_VALUE`; when this is the file `main` opens,
`main` prints `FAIL!` and returns `-1`, not `0`. -/
theorem readBin_never_releases (os : Win32) (filename : String) (s : State)
    (hopen : os.CreateFile filename ≠ INVALID_HANDLE_VALUE)
    (hcalc : os.CreateFile calcPath ≠ INVALID_HANDLE_VALUE) :
    (readBin os filename s).2 = Except.error (Exn.runtime_error "BAD") ∧
    closeCount (readBin os filename s).1.calls = closeCount s.calls ∧
    (readBin os filename s).1.g_hFile = os.CreateFile filename ∧
    (readBin os filename s).1.g_hFile ≠ INVALID_HANDLE_VALUE ∧
    (main os State.start).2 = -1 ∧
    (main os State.start).1.cerr = ["FAIL!\n"] ∧
    (main os State.start).1.cout = [] ∧
    closeCount (main os State.start).1.calls = 0 ∧
    (main os State.start).1.g_hFile ≠ INVALID_HANDLE_VALUE := by
  have hm : main os State.start =
      ({ (readBin os calcPath State.start).1 with
          cerr := (readBin os calcPath State.start).1.cerr ++ ["FAIL!\n"] }, -1) := by
    simp [main, readBin_of_open os calcPath State.start hcalc, hcalc]
  rw [hm, readBin_of_open os filename s hopen, readBin_of_open os calcPath State.start hcalc]
  refine ⟨rfl, ?_, rfl, hopen, rfl, ?_, ?_, ?_, hcalc⟩
  · simp [closeCount]
  · simp [State.start]
  · simp [State.start]
  · simp [closeCount, State.start]

/-- C1 at a concrete operating system: every open yields handle `4`. -/
theorem readBin_never_releases_witness :
    osOpens.CreateFile "a.bin" ≠ INVALID_HANDLE_VALUE ∧
    osOpens.CreateFile calcPath ≠ INVALID_HANDLE_VALUE ∧
    closeCount (readBin osOpens "a.bin" State.start).1.calls = closeCount State.start.calls ∧
    (main osOpens State.start).2 = -1 :=
  have h := readBin_never_releases osOpens "a.bin" State.start (by decide) (by decide)
  ⟨by decide, by decide, h.2.1, h.2.2.2.2.1⟩

/-- C2: for every file name whose open succeeds, the failure `readBin` surfaces is the
`std::runtime_error("BAD")` thrown by `processBin`; it is no `BadFile`. Consequently, when
the file `main` opens can be opened, `main` does not take the `BadFile` handler: it goes on
to the test of `g_hFile` and ends in one of its two branches. -/
theorem readBin_surfaces_processing_failure (os : Win32) (filename : String) (s : State)
    (hopen : os.CreateFile filename ≠ INVALID_HANDLE_VALUE) :
    (∀ bin, (readBin os filename s).2 = processBin bin) ∧
    (readBin os filename s).2 = Except.error (Exn.runtime_error "BAD") ∧
    (∀ what, (readBin os filename s).2 ≠ Except.error (Exn.BadFile what)) ∧
    (filename = calcPath →
      main os s =
        if (readBin os calcPath s).1.g_hFile = INVALID_HANDLE_VALUE then
          ({ (readBin os calcPath s).1 with
              cout := (readBin os calcPath s).1.cout ++ ["PASS!\n"] }, 0)
        else
          ({ (readBin os calcPath s).1 with
              cerr := (readBin os calcPath s).1.cerr ++ ["FAIL!\n"] }, -1)) := by
  refine ⟨?_, ?_, ?_, ?_⟩
  · intro bin
    rw [readBin_of_open os filename s hopen]
    rfl
  · rw [readBin_of_open os filename s hopen]
  · intro what
    rw [readBin_of_open os filename s hopen]
    simp
  · intro hf
    subst hf
    simp [main, readBin_of_open os calcPath s hopen]

/-- C2 at a concrete operating system: every open yields handle `4`. -/
theorem readBin_surfaces_processing_failure_witness :
    osOpens.CreateFile calcPath ≠ INVALID_HANDLE_VALUE ∧
    (readBin osOpens calcPath State.start).2 = Except.error (Exn.runtime_error "BAD") :=
  ⟨by decide,
    (readBin_surfaces_processing_failure osOpens calcPath State.start (by decide)).2.1⟩

/-- C3: for every file name whose open fails, `readBin` throws
`BadFile("Can't Open File\n")` having called only `CreateFile` and `GetLastError` (no
`GetFileSize`, no `ReadFile`, no `CloseHandle`), it leaves `g_hFile` equal to
`INVALID_HANDLE_VALUE`, and when this is the file `main` opens, `main` prints the message
to `std::cerr`, prints nothing to `std::cout` and returns `-1`. -/
theorem readBin_open_failure (os : Win32) (filename : String) (s : State)
    (hfail : os.CreateFile filename = INVALID_HANDLE_VALUE) :
    (readBin os filename s).2 = Except.error (Exn.BadFile "Can't Open File\n") ∧
    (readBin os filename s).1.calls =
      s.calls ++ [Call.CreateFile filename, Call.GetLastError] ∧
    closeCount (readBin os filename s).1.calls = closeCount s.calls ∧
    (readBin os filename s).1.g_hFile = INVALID_HANDLE_VALUE ∧
    (filename = calcPath →
      (main os s).2 = -1 ∧
      (main os s).1.g_hFile = INVALID_HANDLE_VALUE ∧
      (main os s).1.calls = s.calls ++ [Call.CreateFile calcPath, Call.GetLastError] ∧
      (main os s).1.cout = s.cout ∧
      (main os s).1.cerr =
        s.cerr ++ ["ERROR: ", toString (os.GetLastError calcPath), "\n"] ++
          ["Can't Open File\n", "\n"]) := by
  refine ⟨?_, ?_, ?_, ?_, ?_⟩
  · rw [readBin_of_fail os filename s hfail]
  · rw [readBin_of_fail os filename s hfail]; simp
  · rw [readBin_of_fail os filename s hfail]; simp [closeCount]
  · rw [readBin_of_fail os filename s hfail]
  · intro hf
    subst hf
    simp [main, readBin_of_fail os calcPath s hfail]

/-- C3 at a concrete operating system: every open fails. -/
theorem readBin_open_failure_witness :
    osFails.CreateFile calcPath = INVALID_HANDLE_VALUE ∧
    (readBin osFails calcPath State.start).2 = Except.error (Exn.BadFile "Can't Open File\n") ∧
    (main osFails State.start).2 = -1 :=
  have h := readBin_open_failure osFails calcPath State.start rfl
  ⟨rfl, h.1, (h.2.2.2.2 rfl).1⟩

end ScopeGuard

/-! ## Theorems about the scope guard -/

namespace Guard

/-- Calls on an inactive guard leave the world alone and the guard inactive. -/
theorem scopeBody_inactive {σ ε : Type} (calls : List (GuardCall ε)) (l : Life σ ε)
    (h : l.guard.active = false) :
    (scopeBody calls l).world = l.world ∧ (scopeBody calls l).guard.active = false := by
  induction calls generalizing l with
  | nil => exact ⟨rfl, h⟩
  | cons c rest ih =>
    cases c with
    | dismiss =>
      simp only [scopeBody]
      exact ih _ rfl
    | invokeNow =>
      simp only [scopeBody, ScopedAction.invokeNow, h]
      exact ih _ h
    | fail e => exact ⟨rfl, h⟩

/-- Scope exit of an inactive guard leaves the world alone. -/
theorem scopeExit_inactive {σ ε : Type} (g : ScopedAction σ ε) (inflight : Option ε) (w : σ)
    (h : g.active = false) : g.scopeExit inflight w = (g, w, inflight) := by
  simp [ScopedAction.scopeExit, h]

/-- The counter invariant of the scope body: while the guard is active the action has not
run, and it has run at most once in any case. -/
theorem scopeBody_counted {σ ε : Type} (action : σ → σ × Option ε)
    (calls : List (GuardCall ε)) (l : Life (σ × Nat) ε) (n : Nat)
    (hact : l.guard.action = counted action)
    (hfresh : l.guard.active = true → l.world.2 = n)
    (hlo : n ≤ l.world.2) (hhi : l.world.2 ≤ n + 1) :
    (scopeBody calls l).guard.action = counted action ∧
    ((scopeBody calls l).guard.active = true → (scopeBody calls l).world.2 = n) ∧
    n ≤ (scopeBody calls l).world.2 ∧ (scopeBody calls l).world.2 ≤ n + 1 := by
  induction calls generalizing l with
  | nil => exact ⟨hact, hfresh, hlo, hhi⟩
  | cons c rest ih =>
    cases c with
    | dismiss =>
      simp only [scopeBody]
      exact ih _ hact (fun h => by simp [ScopedAction.dismiss] at h) hlo hhi
    | invokeNow =>
      cases hflag : l.guard.active with
      | false =>
        simp only [scopeBody, ScopedAction.invokeNow, hflag]
        exact ih _ hact (fun h => absurd h (by simp [hflag])) hlo hhi
      | true =>
        have hw := hfresh hflag
        simp only [scopeBody, ScopedAction.invokeNow, hflag, if_true]
        split
        · refine ⟨hact, fun h => by simp at h, ?_, ?_⟩ <;> simp [hact, counted, hw]
        · refine ih _ hact (fun h => by simp at h) ?_ ?_ <;> simp [hact, counted, hw]
    | fail e => exact ⟨hact, hfresh, hlo, hhi⟩

/-- The history invariant of the scope body: no value follows a `false` but `false`, and
the current flag is `false` as soon as some earlier value was. -/
theorem scopeBody_history {σ ε : Type} (calls : List (GuardCall ε)) (l : Life σ ε)
    (hmono : neverReactivated l.history)
    (hlast : ∀ a ∈ l.history, a = false → l.guard.active = false)
    (hhead : l.history.head? = some true) :
    neverReactivated (scopeBody calls l).history ∧
    (∀ a ∈ (scopeBody calls l).history,
      a = false → (scopeBody calls l).guard.active = false) ∧
    (scopeBody calls l).history.head? = some true := by
  induction calls generalizing l with
  | nil => exact ⟨hmono, hlast, hhead⟩
  | cons c rest ih =>
    have hne : l.history ≠ [] := by
      intro h0
      rw [h0] at hhead
      simp at hhead
    have hhd : ∀ b : Bool, (l.history ++ [b]).head? = some true := by
      intro b
      rw [List.head?_append_of_ne_nil _ hne]
      exact hhead
    cases c with
    | dismiss =>
      simp only [scopeBody]
      refine ih _ ?_ ?_ (hhd _)
      · simp only [neverReactivated, List.pairwise_append]
        refine ⟨hmono, List.pairwise_singleton _ _, ?_⟩
        intro a _ b hb _
        simp only [List.mem_singleton] at hb
        rw [hb]
        rfl
      · intro a _ _
        rfl
    | invokeNow =>
      have hkey : ∀ a ∈ l.history ++ [(l.guard.invokeNow l.world).1.active], a = false →
          (l.guard.invokeNow l.world).1.active = false := by
        intro a ha hfa
        rcases List.mem_append.1 ha with h1 | h1
        · have := hlast a h1 hfa
          simp [ScopedAction.invokeNow, this]
        · simp only [List.mem_singleton] at h1
          rw [← h1]
          exact hfa
      have hm : neverReactivated (l.history ++ [(l.guard.invokeNow l.world).1.active]) := by
        simp only [neverReactivated, List.pairwise_append]
        refine ⟨hmono, List.pairwise_singleton _ _, ?_⟩
        intro a ha b hb hfa
        simp only [List.mem_singleton] at hb
        rw [hb]
        exact hkey a (List.mem_append_left _ ha) hfa
      simp only [scopeBody]
      split
      · exact ⟨hm, hkey, hhd _⟩
      · exact ih _ hm hkey (hhd _)
    | fail e => exact ⟨hmono, hlast, hhead⟩

/-- C4: the scope guard fires its action at most once over its whole life. For every action,
instrumented with a run counter that starts at `n`, every sequence of `dismiss()`,
`invoke-now()` and failing work in the scope, and the final scope exit, the counter ends at
`n` or `n + 1`; the `active` flag starts `true`, ends `false`, and in the history of its
values a `false` is never followed by a `true`. -/
theorem guard_fires_at_most_once {σ ε : Type} (action : σ → σ × Option ε)
    (calls : List (GuardCall ε)) (w : σ) (n : Nat) :
    n ≤ (lifetime (counted action) calls (w, n)).world.2 ∧
    (lifetime (counted action) calls (w, n)).world.2 ≤ n + 1 ∧
    neverReactivated (lifetime (counted action) calls (w, n)).history ∧
    (lifetime (counted action) calls (w, n)).history.head? = some true ∧
    (lifetime (counted action) calls (w, n)).guard.active = false := by
  obtain ⟨hact, hfresh, hlo, hhi⟩ := scopeBody_counted action calls
    (Life.born (counted action) (w, n)) n rfl (fun _ => rfl) (le_refl _) (Nat.le_succ _)
  obtain ⟨hmono, hlast, hhead⟩ := scopeBody_history calls
    (Life.born (counted action) (w, n))
    (List.pairwise_singleton _ _) (fun a ha hfa => by
      simp only [Life.born, List.mem_singleton] at ha
      rw [ha] at hfa
      exact hfa) rfl
  generalize hl : scopeBody calls (Life.born (counted action) (w, n)) = l
    at hact hfresh hlo hhi hmono hlast hhead
  have hne : l.history ≠ [] := by
    intro h0
    rw [h0] at hhead
    simp at hhead
  have hlife : lifetime (counted action) calls (w, n) =
      { guard := (l.guard.scopeExit l.failure l.world).1
        world := (l.guard.scopeExit l.failure l.world).2.1
        failure := (l.guard.scopeExit l.failure l.world).2.2
        history := l.history ++ [(l.guard.scopeExit l.failure l.world).1.active] } := by
    simp only [lifetime, hl]
  rw [hlife]
  have hoff : (l.guard.scopeExit l.failure l.world).1.active = false := by
    cases hflag : l.guard.active <;> simp [ScopedAction.scopeExit, hflag]
  refine ⟨?_, ?_, ?_, ?_, hoff⟩
  · cases hflag : l.guard.active
    · simpa [ScopedAction.scopeExit, hflag] using hlo
    · simp [ScopedAction.scopeExit, hflag, hact, counted, hfresh hflag]
  · cases hflag : l.guard.active
    · simpa [ScopedAction.scopeExit, hflag] using hhi
    · simp [ScopedAction.scopeExit, hflag, hact, counted, hfresh hflag]
  · simp only [neverReactivated, List.pairwise_append]
    refine ⟨hmono, List.pairwise_singleton _ _, ?_⟩
    intro a _ b hb _
    simp only [List.mem_singleton] at hb
    rw [hb]
    exact hoff
  · simp only
    rw [List.head?_append_of_ne_nil _ hne]
    exact hhead

/-- C5: when the first thing done to a guard is `dismiss()`, whatever follows before scope
exit (further `dismiss()` calls in particular), the action runs zero times: the run counter
of an instrumented action is unchanged at the end of the guard's life, so it was unchanged at
every `dismiss()` and at scope exit, and for any action the world is left as it was. -/
theorem dismissed_guard_never_fires {σ ε : Type} (action : σ → σ × Option ε)
    (rest : List (GuardCall ε)) (w : σ) (n : Nat) :
    (lifetime (counted action) (GuardCall.dismiss :: rest) (w, n)).world.2 = n ∧
    (lifetime action (GuardCall.dismiss :: rest) w).world = w ∧
    (∀ k : Nat,
      (lifetime (counted action) (List.replicate (k + 1) GuardCall.dismiss) (w, n)).world.2
        = n) := by
  have key : ∀ {τ : Type} (act : τ → τ × Option ε) (cs : List (GuardCall ε)) (v : τ),
      (lifetime act (GuardCall.dismiss :: cs) v).world = v := by
    intro τ act cs v
    simp only [lifetime, scopeBody]
    obtain ⟨hw, hoff⟩ := scopeBody_inactive cs
      { Life.born act v with
        guard := (Life.born act v).guard.dismiss
        history := (Life.born act v).history ++ [(Life.born act v).guard.dismiss.active] } rfl
    rw [scopeExit_inactive _ _ _ hoff]
    exact hw
  refine ⟨?_, key action rest w, ?_⟩
  · rw [key (counted action) rest (w, n)]
  · intro k
    rw [List.replicate_succ, key (counted action) _ (w, n)]

end Guard

/-! ## Theorems about the shared-pointer list -/

namespace SmartPointers

/-- The empty pointer heads the empty list only. -/
theorem isList_none (h : Heap) (xs : List (Nat × Nat)) :
    isList h none xs = true ↔ xs = [] := by
  cases xs <;> simp [isList]

/-- A non-empty pointer heads a list exactly when it designates a node, the first element is
that node, and the link of the node heads the rest. -/
theorem isList_cons (h : Heap) (a : Nat) (x : Nat × Nat) (xs : List (Nat × Nat)) :
    isList h (some a) (x :: xs) = true ↔
      ∃ n, h[a]? = some n ∧ x = (a, n.data) ∧ isList h n.next xs = true := by
  cases hn : h[a]? with
  | none => simp [isList, hn]
  | some n =>
    simp only [isList, hn, Bool.and_eq_true, decide_eq_true_eq, Option.some.injEq]
    constructor
    · rintro ⟨⟨h1, h2⟩, h3⟩
      exact ⟨n, rfl, Prod.ext h1 h2, h3⟩
    · rintro ⟨m, hm, hx, hl⟩
      subst hm
      subst hx
      exact ⟨⟨rfl, rfl⟩, hl⟩

/-- A non-empty list starts at a non-empty pointer, at the address of its first element. -/
theorem isList_head (h : Heap) (p : Ptr) (x : Nat × Nat) (xs : List (Nat × Nat))
    (hl : isList h p (x :: xs) = true) : p = some x.1 := by
  cases p with
  | none => simp [isList] at hl
  | some a =>
    obtain ⟨n, _, hx, _⟩ := (isList_cons h a x xs).1 hl
    rw [hx]

/-- A pointer heads at most one list. -/
theorem isList_unique (h : Heap) (p : Ptr) (xs ys : List (Nat × Nat))
    (hx : isList h p xs = true) (hy : isList h p ys = true) : xs = ys := by
  induction xs generalizing p ys with
  | nil =>
    cases p with
    | none => exact ((isList_none h ys).1 hy).symm
    | some a => simp [isList] at hx
  | cons x xs ih =>
    cases p with
    | none => simp [isList] at hx
    | some a =>
      cases ys with
      | nil => simp [isList] at hy
      | cons y ys =>
        obtain ⟨n, hn, hxe, hxl⟩ := (isList_cons h a x xs).1 hx
        obtain ⟨m, hm, hye, hyl⟩ := (isList_cons h a y ys).1 hy
        rw [hn] at hm
        cases hm
        rw [hxe, hye, ih n.next ys hxl hyl]

/-- Every element of a list heads the rest of the list from itself on. -/
theorem isList_tail_from (h : Heap) (p : Ptr) (pre : List (Nat × Nat)) (x : Nat × Nat)
    (post : List (Nat × Nat)) (hl : isList h p (pre ++ x :: post) = true) :
    isList h (some x.1) (x :: post) = true := by
  induction pre generalizing p with
  | nil =>
    have hp := isList_head h p x post hl
    rw [hp] at hl
    exact hl
  | cons y pre ih =>
    cases p with
    | none => simp [isList] at hl
    | some a =>
      obtain ⟨n, _, _, hrest⟩ := (isList_cons h a y (pre ++ x :: post)).1 hl
      exact ih n.next hrest

/-- A finite list has no cycle: the address of the first node does not occur again. -/
theorem isList_head_fresh (h : Heap) (p : Ptr) (x : Nat × Nat) (xs : List (Nat × Nat))
    (hl : isList h p (x :: xs) = true) : ∀ y ∈ xs, y.1 ≠ x.1 := by
  intro y hy hyx
  obtain ⟨pre, post, hsplit⟩ := List.append_of_mem hy
  have hp := isList_head h p x xs hl
  subst hp
  obtain ⟨n, _, _, hrest⟩ := (isList_cons h x.1 x xs).1 hl
  rw [hsplit] at hrest
  have h1 := isList_tail_from h n.next pre y post hrest
  rw [hyx] at h1
  have h2 := isList_unique h (some x.1) (x :: xs) (y :: post) hl h1
  have h3 : xs = post := (List.cons.inj h2).2
  have h4 := congrArg List.length hsplit
  rw [h3] at h4
  simp at h4
  omega

/-- The addresses of a list designate nodes of the heap. -/
theorem isList_addr_lt (h : Heap) (p : Ptr) (xs : List (Nat × Nat))
    (hl : isList h p xs = true) : ∀ y ∈ xs, y.1 < h.length := by
  induction xs generalizing p with
  | nil => simp
  | cons x xs ih =>
    cases p with
    | none => simp [isList] at hl
    | some a =>
      obtain ⟨n, hn, hx, hrest⟩ := (isList_cons h a x xs).1 hl
      intro y hy
      rcases List.mem_cons.1 hy with h1 | h1
      · rw [h1, hx]
        by_contra hge
        rw [List.getElem?_eq_none (by simpa using hge)] at hn
        cases hn
      · exact ih n.next hrest y h1

/-- Frame rule: a list is not affected by the creation of a node. -/
theorem isList_append (h : Heap) (p : Ptr) (xs : List (Nat × Nat)) (extra : List ListNode)
    (hl : isList h p xs = true) : isList (h ++ extra) p xs = true := by
  induction xs generalizing p with
  | nil =>
    cases p with
    | none => rfl
    | some a => simp [isList] at hl
  | cons x xs ih =>
    cases p with
    | none => simp [isList] at hl
    | some a =>
      obtain ⟨n, hn, hx, hrest⟩ := (isList_cons h a x xs).1 hl
      have hlt : a < h.length := by
        have := isList_addr_lt h (some a) (x :: xs) hl x (List.mem_cons_self _ _)
        rw [hx] at this
        exact this
      refine (isList_cons (h ++ extra) a x xs).2 ⟨n, ?_, hx, ih n.next hrest⟩
      rw [List.getElem?_append_left hlt]
      exact hn

/-- Frame rule: a list is not affected by an assignment to a node outside of it. -/
theorem isList_update (h : Heap) (p : Ptr) (xs : List (Nat × Nat)) (a : Nat)
    (f : ListNode → ListNode) (hl : isList h p xs = true) (hout : ∀ y ∈ xs, y.1 ≠ a) :
    isList (h.update a f) p xs = true := by
  induction xs generalizing p with
  | nil =>
    cases p with
    | none => rfl
    | some b => simp [isList] at hl
  | cons x xs ih =>
    cases p with
    | none => simp [isList] at hl
    | some b =>
      obtain ⟨n, hn, hx, hrest⟩ := (isList_cons h b x xs).1 hl
      have hba : b ≠ a := by
        have := hout x (List.mem_cons_self _ _)
        rw [hx] at this
        exact this
      refine (isList_cons (h.update a f) b x xs).2 ⟨n, ?_, hx,
        ih n.next hrest (fun y hy => hout y (List.mem_cons_of_mem _ hy))⟩
      unfold Heap.update
      split
      · rw [List.getElem?_set_ne (Ne.symm hba)]
        exact hn
      · exact hn

/-- What `add_node` does to the heap: one node is appended, holding `value` and linking to
the old head. -/
theorem add_node_eq (h : Heap) (head : Ptr) (value : Nat) :
    add_node h head value = (h ++ [{ next := head, data := value }], some h.length) := by
  simp [add_node, make_shared, Heap.update]

/-- The statement `count++` adds one modulo `2 ^ 32`. -/
theorem int_incr_emod (count : Int) : int_incr count % 2 ^ 32 = (count + 1) % 2 ^ 32 := by
  unfold int_incr INT_MAX INT_MIN
  split <;> omega

/-- The counting loop on a finite list: with enough budget it returns, and the counter it
returns is the initial one advanced by the number of nodes, modulo `2 ^ 32`. -/
theorem get_count_loop_ok (h : Heap) (p : Ptr) (xs : List (Nat × Nat)) (count : Int)
    (fuel : Nat) (hl : isList h p xs = true) (hfuel : xs.length < fuel) :
    ∃ r, get_count_loop fuel h p count = Except.ok r ∧
      r % 2 ^ 32 = (count + xs.length) % 2 ^ 32 := by
  induction xs generalizing p count fuel with
  | nil =>
    cases p with
    | none =>
      cases fuel with
      | zero => simp at hfuel
      | succ fuel => exact ⟨count, by simp [get_count_loop], by simp⟩
    | some a => simp [isList] at hl
  | cons x xs ih =>
    cases p with
    | none => simp [isList] at hl
    | some a =>
      obtain ⟨n, hn, _, hrest⟩ := (isList_cons h a x xs).1 hl
      cases fuel with
      | zero => simp at hfuel
      | succ fuel =>
        obtain ⟨r, hr, hmod⟩ := ih n.next (int_incr count) fuel hrest (by simpa using hfuel)
        refine ⟨r, by simp only [get_count_loop, hn, hr], ?_⟩
        have hstep := int_incr_emod count
        simp only [List.length_cons, Nat.cast_add, Nat.cast_one]
        omega

/-- The function `get_count` on a finite list: with enough budget it returns the number of
nodes, converted to `uint32_t`. -/
theorem get_count_eq (h : Heap) (p : Ptr) (xs : List (Nat × Nat)) (fuel : Nat)
    (hl : isList h p xs = true) (hfuel : xs.length < fuel) :
    get_count fuel h p = Except.ok (xs.length % 2 ^ 32) := by
  obtain ⟨r, hr, hmod⟩ := get_count_loop_ok h p xs 0 fuel hl hfuel
  simp only [get_count, hr]
  congr 1
  rw [hmod, zero_add]
  have hcast : ((xs.length % 2 ^ 32 : Nat) : Int) = (xs.length : Int) % 2 ^ 32 := by
    push_cast
    rfl
  rw [← hcast]
  exact Int.toNat_natCast _

/-- The function `get_count` on a finite list of fewer than `2 ^ 31` nodes. -/
theorem get_count_ok (h : Heap) (p : Ptr) (xs : List (Nat × Nat)) (fuel : Nat)
    (hl : isList h p xs = true) (hfuel : xs.length < fuel) (hsmall : xs.length < 2 ^ 31) :
    get_count fuel h p = Except.ok xs.length := by
  rw [get_count_eq h p xs fuel hl hfuel, Nat.mod_eq_of_lt (by omega)]

/-- The counting loop on a finite list runs out of budget when the budget does not exceed
the number of nodes. -/
theorem get_count_loop_short (h : Heap) (p : Ptr) (xs : List (Nat × Nat)) (count : Int)
    (fuel : Nat) (hl : isList h p xs = true) (hshort : fuel ≤ xs.length) :
    get_count_loop fuel h p count = Except.error Fault.outOfFuel := by
  induction xs generalizing p count fuel with
  | nil =>
    have : fuel = 0 := by simpa using hshort
    subst this
    rfl
  | cons x xs ih =>
    cases fuel with
    | zero => rfl
    | succ fuel =>
      cases p with
      | none => simp [isList] at hl
      | some a =>
        obtain ⟨n, hn, _, hrest⟩ := (isList_cons h a x xs).1 hl
        simp only [get_count_loop, hn]
        exact ih n.next (int_incr count) fuel hrest (by simpa using hshort)

/-- When `get_count` returns on a finite list, the budget exceeded the number of nodes and
the value returned is that number, converted to `uint32_t`. -/
theorem get_count_inv (h : Heap) (p : Ptr) (xs : List (Nat × Nat)) (fuel c : Nat)
    (hl : isList h p xs = true) (hc : get_count fuel h p = Except.ok c) :
    xs.length < fuel ∧ c = xs.length % 2 ^ 32 := by
  have hfuel : xs.length < fuel := by
    by_contra hshort
    simp [get_count, get_count_loop_short h p xs 0 fuel hl (Nat.le_of_not_lt hshort)] at hc
  refine ⟨hfuel, ?_⟩
  rw [get_count_eq h p xs fuel hl hfuel] at hc
  exact (Except.ok.inj hc).symm

/-- Every element of a list is a node of the heap with that data. -/
theorem isList_mem_node (h : Heap) (p : Ptr) (xs : List (Nat × Nat))
    (hl : isList h p xs = true) (y : Nat × Nat) (hy : y ∈ xs) :
    ∃ n, h[y.1]? = some n ∧ n.data = y.2 := by
  obtain ⟨pre, post, hsplit⟩ := List.append_of_mem hy
  rw [hsplit] at hl
  obtain ⟨n, hn, hx, _⟩ := (isList_cons h y.1 y post).1 (isList_tail_from h p pre y post hl)
  refine ⟨n, hn, ?_⟩
  rw [hx]

/-- The search loop on a finite list returns, with enough budget, the address of the first
element whose data is the needle, or the empty pointer when there is none. -/
theorem find_value_eq (h : Heap) (p : Ptr) (xs : List (Nat × Nat)) (needle fuel : Nat)
    (hl : isList h p xs = true) (hfuel : xs.length < fuel) :
    find_value fuel h p needle =
      Except.ok ((xs.find? (fun x => decide (x.2 = needle))).map Prod.fst) := by
  induction xs generalizing p fuel with
  | nil =>
    cases p with
    | none =>
      cases fuel with
      | zero => simp at hfuel
      | succ fuel => simp [find_value]
    | some a => simp [isList] at hl
  | cons x xs ih =>
    cases p with
    | none => simp [isList] at hl
    | some a =>
      obtain ⟨n, hn, hx, hrest⟩ := (isList_cons h a x xs).1 hl
      cases fuel with
      | zero => simp at hfuel
      | succ fuel =>
        subst hx
        by_cases hd : n.data = needle
        · simp [find_value, hn, hd]
        · simp only [find_value, hn, hd, if_false, List.find?_cons, decide_False]
          exact ih n.next fuel hrest (by simpa using hfuel)

/-- The list built by `n` calls of `add_node` is a finite list of `n` nodes. -/
theorem zeros_isList (n : Nat) :
    ∃ xs, xs.length = n ∧ isList (zeros n).1 (zeros n).2 xs = true := by
  induction n with
  | zero => exact ⟨[], rfl, rfl⟩
  | succ n ih =>
    obtain ⟨xs, hlen, hl⟩ := ih
    refine ⟨((zeros n).1.length, 0) :: xs, by simp [hlen], ?_⟩
    show isList (add_node (zeros n).1 (zeros n).2 0).1 (add_node (zeros n).1 (zeros n).2 0).2
      (((zeros n).1.length, 0) :: xs) = true
    rw [add_node_eq]
    refine (isList_cons _ _ _ _).2 ⟨{ next := (zeros n).2, data := 0 }, ?_, rfl, ?_⟩
    · simp
    · exact isList_append _ _ _ _ hl

/-- On the list built by `n` calls of `add_node`, `get_count` returns `n` converted to
`uint32_t`; at the end of the range of `int`, after `2 ^ 31` calls, it returns `2 ^ 31`. -/
theorem zeros_count (n fuel : Nat) (hfuel : n < fuel) :
    get_count fuel (zeros n).1 (zeros n).2 = Except.ok (n % 2 ^ 32) ∧
    get_count (2 ^ 31 + 1) (zeros (2 ^ 31)).1 (zeros (2 ^ 31)).2 = Except.ok (2 ^ 31) := by
  have key : ∀ m f : Nat, m < f →
      get_count f (zeros m).1 (zeros m).2 = Except.ok (m % 2 ^ 32) := by
    intro m f hf
    obtain ⟨xs, hlen, hl⟩ := zeros_isList m
    have := get_count_eq (zeros m).1 (zeros m).2 xs f hl (by omega)
    rw [hlen] at this
    exact this
  exact ⟨key n fuel hfuel, key (2 ^ 31) (2 ^ 31 + 1) (by norm_num)⟩

/-- C6 (the code as it stands): on the empty list `remove_node` dereferences the empty
`head` in `head = head->next`: it does not return an empty `shared_ptr`, it has no defined
result at all, whatever the heap. -/
theorem remove_node_empty_faults (h : Heap) :
    remove_node h none = Except.error Fault.nullDeref ∧
    remove_node h none ≠ Except.ok (h, none, none) := by
  constructor
  · rfl
  · intro hc
    cases hc

/-- C9: for every finite list of fewer than `2 ^ 31` nodes, `get_count` returns, with any
budget above the number of nodes, the number of nodes of the list; and it returns `0` for
the empty list. -/
theorem get_count_counts (h : Heap) (head : Ptr) (xs : List (Nat × Nat)) (fuel : Nat)
    (hl : isList h head xs = true) (hsmall : xs.length < 2 ^ 31) (hfuel : xs.length < fuel) :
    get_count fuel h head = Except.ok xs.length ∧
    get_count fuel h none = Except.ok 0 := by
  refine ⟨get_count_ok h head xs fuel hl hfuel hsmall, ?_⟩
  exact get_count_ok h none [] fuel rfl (by simp; omega) (by norm_num)

/-- C9 on the sample heap: the list `9, 5, 7` has three nodes. -/
theorem get_count_counts_witness :
    isList sampleHeap (some 2) [(2, 9), (1, 5), (0, 7)] = true ∧
    get_count 4 sampleHeap (some 2) = Except.ok 3 ∧
    get_count 4 sampleHeap none = Except.ok 0 :=
  ⟨by decide,
    get_count_counts sampleHeap (some 2) [(2, 9), (1, 5), (0, 7)] 4 (by decide)
      (by norm_num) (by decide)⟩

/-- C10: for every finite list and every needle, `find_value` returns, with any budget above
the number of nodes; the pointer returned is non-empty if and only if some node of the list
has data equal to the needle; a non-empty pointer returned is the address of a node of the
list, and the data of that node is the needle; and when no node matches, the pointer returned
is empty. -/
theorem find_value_found_iff (h : Heap) (head : Ptr) (xs : List (Nat × Nat))
    (needle fuel : Nat) (hl : isList h head xs = true) (hfuel : xs.length < fuel) :
    ∃ r, find_value fuel h head needle = Except.ok r ∧
      (r.isSome = true ↔ ∃ x ∈ xs, x.2 = needle) ∧
      (∀ a, r = some a →
        (a, needle) ∈ xs ∧ ∃ n, h[a]? = some n ∧ n.data = needle) ∧
      ((∀ x ∈ xs, x.2 ≠ needle) → r = none) := by
  refine ⟨_, find_value_eq h head xs needle fuel hl hfuel, ?_, ?_, ?_⟩
  · cases hf : xs.find? (fun x => decide (x.2 = needle)) with
    | none =>
      rw [List.find?_eq_none] at hf
      simp only [Option.map_none', Option.isSome_none, Bool.false_eq_true, false_iff]
      rintro ⟨x, hx, hxn⟩
      exact hf x hx (by simpa using hxn)
    | some y =>
      simp only [Option.map_some', Option.isSome_some, true_iff]
      exact ⟨y, List.mem_of_find?_eq_some hf, by simpa using List.find?_some hf⟩
  · intro a ha
    cases hf : xs.find? (fun x => decide (x.2 = needle)) with
    | none =>
      rw [hf] at ha
      cases ha
    | some y =>
      rw [hf] at ha
      have hya : y.1 = a := Option.some.inj ha
      have hmem := List.mem_of_find?_eq_some hf
      have hdata : y.2 = needle := by simpa using List.find?_some hf
      subst hya
      have hpair : (y.1, needle) = y := by
        rw [← hdata]
      rw [hpair]
      refine ⟨hmem, ?_⟩
      obtain ⟨n, hn, hnd⟩ := isList_mem_node h head xs hl y hmem
      exact ⟨n, hn, hnd.trans hdata⟩
  · intro hnone
    have hf : xs.find? (fun x => decide (x.2 = needle)) = none := by
      rw [List.find?_eq_none]
      intro x hx
      simpa using hnone x hx
    rw [hf]
    rfl

/-- C10 on the sample heap: `5` is found at address `1`, and `4` is not found. -/
theorem find_value_found_iff_witness :
    isList sampleHeap (some 2) [(2, 9), (1, 5), (0, 7)] = true ∧
    (∃ r, find_value 4 sampleHeap (some 2) 5 = Except.ok r ∧
      (r.isSome = true ↔ ∃ x ∈ [(2, 9), (1, 5), (0, 7)], x.2 = 5)) ∧
    find_value 4 sampleHeap (some 2) 5 = Except.ok (some 1) ∧
    find_value 4 sampleHeap (some 2) 4 = Except.ok none :=
  ⟨by decide,
    match find_value_found_iff sampleHeap (some 2) [(2, 9), (1, 5), (0, 7)] 5 4 (by decide)
      (by decide) with
    | ⟨r, hr, hiff, _, _⟩ => ⟨r, hr, hiff⟩,
    rfl, rfl⟩

end SmartPointers

/-! ## Theorems about sequences of calls and about the first match -/

namespace SmartPointers

/-- Following `next` along a finite list reaches the empty pointer after as many steps as
the list has nodes. -/
theorem follow_isList (h : Heap) (p : Ptr) (xs : List (Nat × Nat))
    (hl : isList h p xs = true) : follow xs.length h p = some none := by
  induction xs generalizing p with
  | nil =>
    cases p with
    | none => rfl
    | some a => simp [isList] at hl
  | cons x xs ih =>
    cases p with
    | none => simp [isList] at hl
    | some a =>
      obtain ⟨n, hn, _, hrest⟩ := (isList_cons h a x xs).1 hl
      simp only [List.length_cons, follow, hn]
      exact ih n.next hrest

/-- A node whose link is empty is a finite list of one node. -/
theorem isList_single (h : Heap) (a d : Nat) (hn : h[a]? = some { next := none, data := d }) :
    isList h (some a) [(a, d)] = true :=
  (isList_cons h a (a, d) []).2 ⟨_, hn, rfl, rfl⟩

/-- Clearing the link of a node keeps every node with an empty link as it is. -/
theorem update_keeps_unlinked (h : Heap) (a b d : Nat)
    (hn : h[b]? = some { next := none, data := d }) :
    (h.update a (fun m => { m with next := none }))[b]? = some { next := none, data := d } := by
  unfold Heap.update
  cases ha : h[a]? with
  | none => exact hn
  | some n =>
    by_cases hab : a = b
    · subst hab
      have hlt : a < h.length := by
        by_contra hge
        rw [List.getElem?_eq_none (by simpa using hge)] at ha
        cases ha
      rw [ha] at hn
      cases hn
      simp only
      rw [List.getElem?_set_self hlt]
    · simp only
      rw [List.getElem?_set_ne hab]
      exact hn

/-- The invariant of a session: `head` heads a finite list, and every pointer returned by
`remove_node` designates a node whose link is empty. -/
theorem call_keeps_finite (s s1 : Session) (c : ListCall)
    (hlist : ∃ xs, isList s.heap s.head xs = true)
    (hret : ∀ r ∈ s.returned, ∃ a d, r = some a ∧
      s.heap[a]? = some { next := none, data := d })
    (hcall : s.call c = Except.ok s1) :
    (∃ xs, isList s1.heap s1.head xs = true) ∧
    (∀ r ∈ s1.returned, ∃ a d, r = some a ∧
      s1.heap[a]? = some { next := none, data := d }) := by
  obtain ⟨xs, hl⟩ := hlist
  cases c with
  | add_node value =>
    simp only [Session.call, Except.ok.injEq] at hcall
    subst hcall
    simp only [add_node_eq]
    constructor
    · refine ⟨(s.heap.length, value) :: xs, (isList_cons _ _ _ _).2
        ⟨{ next := s.head, data := value }, by simp, rfl, isList_append _ _ _ _ hl⟩⟩
    · intro r hr
      obtain ⟨a, d, hra, hnode⟩ := hret r hr
      refine ⟨a, d, hra, ?_⟩
      have hlt : a < s.heap.length := by
        by_contra hge
        rw [List.getElem?_eq_none (by simpa using hge)] at hnode
        cases hnode
      rw [List.getElem?_append_left hlt]
      exact hnode
  | remove_node =>
    cases xs with
    | nil =>
      cases hh : s.head with
      | none => simp [Session.call, remove_node, hh] at hcall
      | some a =>
        rw [hh] at hl
        simp [isList] at hl
    | cons x xs =>
      have hp := isList_head s.heap s.head x xs hl
      obtain ⟨n, hn, hx, hrest⟩ := (isList_cons s.heap x.1 x xs).1 (hp ▸ hl)
      simp only [Session.call, remove_node, hp, hn, Except.ok.injEq] at hcall
      subst hcall
      constructor
      · exact ⟨xs, isList_update s.heap n.next xs x.1 _ hrest
          (isList_head_fresh s.heap _ x xs hl)⟩
      · intro r hr
        rcases List.mem_append.1 hr with h1 | h1
        · obtain ⟨a, d, hra, hnode⟩ := hret r h1
          exact ⟨a, d, hra, update_keeps_unlinked s.heap x.1 a d hnode⟩
        · simp only [List.mem_singleton] at h1
          refine ⟨x.1, n.data, h1, ?_⟩
          have hlt : x.1 < s.heap.length :=
            isList_addr_lt s.heap _ _ hl x (List.mem_cons_self _ _)
          simp only [Heap.update, hn]
          rw [List.getElem?_set_self hlt]

/-- The invariant of a session holds after every sequence of calls that runs to its end. -/
theorem calls_keep_finite (cs : List ListCall) (s s1 : Session)
    (hlist : ∃ xs, isList s.heap s.head xs = true)
    (hret : ∀ r ∈ s.returned, ∃ a d, r = some a ∧
      s.heap[a]? = some { next := none, data := d })
    (hrun : Session.calls cs s = Except.ok s1) :
    (∃ xs, isList s1.heap s1.head xs = true) ∧
    (∀ r ∈ s1.returned, ∃ a d, r = some a ∧
      s1.heap[a]? = some { next := none, data := d }) := by
  induction cs generalizing s with
  | nil =>
    simp only [Session.calls, Except.ok.injEq] at hrun
    subst hrun
    exact ⟨hlist, hret⟩
  | cons c cs ih =>
    cases hc : s.call c with
    | error f => simp [Session.calls, hc] at hrun
    | ok s2 =>
      simp only [Session.calls, hc] at hrun
      obtain ⟨h1, h2⟩ := call_keeps_finite s s2 c hlist hret hc
      exact ih s2 h1 h2 hrun

/-- From the empty list, a sequence of calls can only stop early at a `remove_node` on the
empty list: the one fault possible is the dereference of the empty `head`. -/
theorem calls_fault (cs : List ListCall) (s : Session) (f : Fault)
    (hlist : ∃ xs, isList s.heap s.head xs = true)
    (hrun : Session.calls cs s = Except.error f) : f = Fault.nullDeref := by
  induction cs generalizing s with
  | nil => simp [Session.calls] at hrun
  | cons c cs ih =>
    cases hc : s.call c with
    | ok s2 =>
      simp only [Session.calls, hc] at hrun
      have hkeep : ∃ xs, isList s2.heap s2.head xs = true := by
        obtain ⟨xs, hl⟩ := hlist
        cases c with
        | add_node value =>
          simp only [Session.call, Except.ok.injEq] at hc
          subst hc
          simp only [add_node_eq]
          exact ⟨(s.heap.length, value) :: xs, (isList_cons _ _ _ _).2
            ⟨{ next := s.head, data := value }, by simp, rfl, isList_append _ _ _ _ hl⟩⟩
        | remove_node =>
          cases xs with
          | nil =>
            cases hh : s.head with
            | none => simp [Session.call, remove_node, hh] at hc
            | some a =>
              rw [hh] at hl
              simp [isList] at hl
          | cons x xs =>
            have hp := isList_head s.heap s.head x xs hl
            obtain ⟨n, hn, _, hrest⟩ := (isList_cons s.heap x.1 x xs).1 (hp ▸ hl)
            simp only [Session.call, remove_node, hp, hn, Except.ok.injEq] at hc
            subst hc
            exact ⟨xs, isList_update s.heap n.next xs x.1 _ hrest
              (isList_head_fresh s.heap _ x xs hl)⟩
      exact ih s2 hkeep hrun
    | error g =>
      simp only [Session.calls, hc] at hrun
      cases hrun
      obtain ⟨xs, hl⟩ := hlist
      cases c with
      | add_node value => simp [Session.call] at hc
      | remove_node =>
        cases hh : s.head with
        | none =>
          simp only [Session.call, remove_node, hh] at hc
          cases hc
          rfl
        | some a =>
          rw [hh] at hl
          cases xs with
          | nil => simp [isList] at hl
          | cons x xs =>
            obtain ⟨n, hn, _, _⟩ := (isList_cons s.heap a x xs).1 hl
            simp [Session.call, remove_node, hh, hn] at hc

/-- The first element of a list that satisfies a test splits the list: nothing before it
satisfies the test. -/
theorem find?_split {α : Type} (p : α → Bool) (xs : List α) (hex : ∃ x ∈ xs, p x = true) :
    ∃ pre x post, xs = pre ++ x :: post ∧ p x = true ∧ (∀ y ∈ pre, p y = false) ∧
      xs.find? p = some x := by
  induction xs with
  | nil =>
    obtain ⟨x, hx, _⟩ := hex
    cases hx
  | cons z zs ih =>
    cases hz : p z with
    | true => exact ⟨[], z, zs, rfl, hz, by simp, by simp [List.find?_cons, hz]⟩
    | false =>
      have hex1 : ∃ x ∈ zs, p x = true := by
        obtain ⟨x, hx, hpx⟩ := hex
        rcases List.mem_cons.1 hx with h1 | h1
        · rw [h1, hz] at hpx
          cases hpx
        · exact ⟨x, h1, hpx⟩
      obtain ⟨pre, x, post, hsplit, hpx, hpre, hfind⟩ := ih hex1
      refine ⟨z :: pre, x, post, by rw [hsplit]; rfl, hpx, ?_, by
        simp [List.find?_cons, hz, hfind]⟩
      intro y hy
      rcases List.mem_cons.1 hy with h1 | h1
      · rw [h1]
        exact hz
      · exact hpre y h1

/-- C11: no cycle is ever formed. Starting from the empty list, after every finite sequence
of `add_node` calls and `remove_node` calls that runs to its end, following `next` from
`head` reaches the empty pointer after finitely many steps (`head` heads a finite list), and
every pointer that `remove_node` has returned designates a node whose link is empty, so that
following `next` from it reaches the empty pointer after one step. A sequence fails to run to
its end only at a `remove_node` on the empty list, by the dereference of the empty `head`. -/
theorem no_cycle_is_formed (cs : List ListCall) :
    (∀ s, Session.calls cs Session.start = Except.ok s →
      (∃ n, follow n s.heap s.head = some none) ∧
      (∃ xs, isList s.heap s.head xs = true) ∧
      (∀ r ∈ s.returned, follow 1 s.heap r = some none) ∧
      (∀ r ∈ s.returned, ∃ a d, r = some a ∧ isList s.heap r [(a, d)] = true)) ∧
    (∀ f, Session.calls cs Session.start = Except.error f → f = Fault.nullDeref) := by
  constructor
  · intro s hrun
    obtain ⟨⟨xs, hl⟩, hret⟩ := calls_keep_finite cs Session.start s ⟨[], rfl⟩
      (fun r hr => by cases hr) hrun
    refine ⟨⟨xs.length, follow_isList _ _ xs hl⟩, ⟨xs, hl⟩, ?_, ?_⟩
    · intro r hr
      obtain ⟨a, d, hra, hnode⟩ := hret r hr
      subst hra
      exact follow_isList _ _ [(a, d)] (isList_single _ a d hnode)
    · intro r hr
      obtain ⟨a, d, hra, hnode⟩ := hret r hr
      subst hra
      exact ⟨a, d, rfl, isList_single _ a d hnode⟩
  · intro f hrun
    exact calls_fault cs Session.start f ⟨[], rfl⟩ hrun

/-- C11 on a concrete sequence: `add_node(7)`, `add_node(5)`, `remove_node`, `add_node(9)`
from the empty list leaves the list `9, 7` and has returned the node holding `5`. -/
theorem no_cycle_is_formed_witness :
    Session.calls
        [ListCall.add_node 7, ListCall.add_node 5, ListCall.remove_node, ListCall.add_node 9]
        Session.start =
      Except.ok
        { heap := [{ next := none, data := 7 }, { next := none, data := 5 },
            { next := some 0, data := 9 }]
          head := some 2
          returned := [some 1] } ∧
    (∃ n, follow n
      [{ next := none, data := 7 }, { next := none, data := 5 }, { next := some 0, data := 9 }]
      (some 2) = some none) ∧
    follow 1
      [{ next := none, data := 7 }, { next := none, data := 5 }, { next := some 0, data := 9 }]
      (some 1) = some none :=
  have h := (no_cycle_is_formed
    [ListCall.add_node 7, ListCall.add_node 5, ListCall.remove_node, ListCall.add_node 9]).1
    { heap := [{ next := none, data := 7 }, { next := none, data := 5 },
        { next := some 0, data := 9 }]
      head := some 2
      returned := [some 1] } rfl
  ⟨rfl, h.1, h.2.2.1 (some 1) (List.mem_singleton.2 rfl)⟩

/-- C12: for every finite list and every needle that occurs in it, `find_value` returns,
with any budget above the number of nodes, the first node in list order whose data is the
needle: the list splits into the nodes before, all with other data, the node returned, and
the nodes after; the node returned is unchanged in the heap and its link still heads the
nodes after, so the chain from the pointer returned is the rest of the list from the first
match on. -/
theorem find_value_first_match (h : Heap) (head : Ptr) (xs : List (Nat × Nat))
    (needle fuel : Nat) (hl : isList h head xs = true) (hocc : ∃ x ∈ xs, x.2 = needle)
    (hfuel : xs.length < fuel) :
    ∃ pre x post,
      xs = pre ++ x :: post ∧
      x.2 = needle ∧
      (∀ y ∈ pre, y.2 ≠ needle) ∧
      find_value fuel h head needle = Except.ok (some x.1) ∧
      isList h (some x.1) (x :: post) = true ∧
      (∃ n, h[x.1]? = some n ∧ n.data = needle ∧ isList h n.next post = true) := by
  obtain ⟨pre, x, post, hsplit, hpx, hpre, hfind⟩ :=
    find?_split (fun y : Nat × Nat => decide (y.2 = needle)) xs (by
      obtain ⟨y, hy, hyn⟩ := hocc
      exact ⟨y, hy, by simpa using hyn⟩)
  have hxn : x.2 = needle := by simpa using hpx
  have hchain : isList h (some x.1) (x :: post) = true :=
    isList_tail_from h head pre x post (hsplit ▸ hl)
  refine ⟨pre, x, post, hsplit, hxn, ?_, ?_, hchain, ?_⟩
  · intro y hy
    simpa using hpre y hy
  · rw [find_value_eq h head xs needle fuel hl hfuel, hfind]
    rfl
  · obtain ⟨n, hn, hx, hrest⟩ := (isList_cons h x.1 x post).1 hchain
    refine ⟨n, hn, ?_, hrest⟩
    rw [← hxn, hx]

/-- C12 on the heap of the list `9, 5, 7, 5`: the search for `5` returns the node at address
`2`, the first of the two that hold `5`. -/
theorem find_value_first_match_witness :
    isList repeatHeap (some 3) [(3, 9), (2, 5), (1, 7), (0, 5)] = true ∧
    find_value 5 repeatHeap (some 3) 5 = Except.ok (some 2) ∧
    ∃ pre x post,
      [(3, 9), (2, 5), (1, 7), (0, 5)] = pre ++ x :: post ∧
      (∀ y ∈ pre, y.2 ≠ 5) ∧
      find_value 5 repeatHeap (some 3) 5 = Except.ok (some x.1) ∧
      isList repeatHeap (some x.1) (x :: post) = true :=
  ⟨by decide, rfl,
    match find_value_first_match repeatHeap (some 3) [(3, 9), (2, 5), (1, 7), (0, 5)] 5 5
      (by decide) ⟨(2, 5), by decide, rfl⟩ (by decide) with
    | ⟨pre, x, post, hsplit, _, hpre, hfv, hchain, _⟩ =>
      ⟨pre, x, post, hsplit, hpre, hfv, hchain⟩⟩

end SmartPointers
